import Mathlib

/-
Verification of the Samurai identifier-splitting algorithm (samurai.py).

The program is embedded shallowly: tokens are lists of characters, scores
live in a linear ordered field R (the reference uses IEEE floats, idealized
here as exact arithmetic), and the external collaborators (the corpus
frequency model, the enchant dictionary, the upstream simple splitter and
the math.pow library routine) are fields of an Oracles structure.
-/

namespace Samurai

/-- Python str.lower, as used on ASCII identifier text. -/
def lower (w : List Char) : List Char := w.map Char.toLower

/-- External collaborators of samurai.py: word_frequency (from the
frequencies module), the enchant dictionary check (called on lower-cased
words), simple_split (from simple_splitters) and math.pow. -/
structure Oracles (R : Type) where
  word_frequency : List Char → R
  dict_check : List Char → Bool
  simple_split : List Char → List (List Char)
  powf : R → R → R

/-- Table prefix_list from samurai.py (verbatim). -/
def prefix_list : List (List Char) :=
  (["afro", "ambi", "amphi", "ana", "anglo", "apo", "astro", "bi",
    "bio", "circum", "cis", "co", "col", "com", "con", "contra",
    "cor", "cryo", "crypto", "de", "de", "demi", "di", "dif",
    "dis", "du", "duo", "eco", "electro", "em", "en", "epi",
    "euro", "ex", "franco", "geo", "hemi", "hetero", "homo",
    "hydro", "hypo", "ideo", "idio", "il", "im", "infra", "inter",
    "intra", "ir", "iso", "macr", "mal", "maxi", "mega", "megalo",
    "micro", "midi", "mini", "mis", "mon", "multi", "neo", "omni",
    "paleo", "para", "ped", "peri", "poly", "pre", "preter",
    "proto", "pyro", "re", "retro", "semi", "socio", "supra",
    "sur", "sy", "syl", "sym", "syn", "tele", "trans", "tri",
    "twi", "ultra", "un", "uni"] : List String).map String.data

/-- Table suffix_list from samurai.py (verbatim). -/
def suffix_list : List (List Char) :=
  (["a", "ac", "acea", "aceae", "acean", "aceous", "ade", "aemia",
    "agogue", "aholic", "al", "ales", "algia", "amine", "ana",
    "anae", "ance", "ancy", "androus", "andry", "ane", "ar",
    "archy", "ard", "aria", "arian", "arium", "ary", "ase",
    "athon", "ation", "ative", "ator", "atory", "biont", "biosis",
    "cade", "caine", "carp", "carpic", "carpous", "cele", "cene",
    "centric", "cephalic", "cephalous", "cephaly", "chory",
    "chrome", "cide", "clast", "clinal", "cline", "coccus",
    "coel", "coele", "colous", "cracy", "crat", "cratic",
    "cratical", "cy", "cyte", "derm", "derma", "dermatous", "dom",
    "drome", "dromous", "eae", "ectomy", "ed", "ee", "eer", "ein",
    "eme", "emia", "en", "ence", "enchyma", "ency", "ene", "ent",
    "eous", "er", "ergic", "ergy", "es", "escence", "escent",
    "ese", "esque", "ess", "est", "et", "eth", "etic", "ette",
    "ey", "facient", "fer", "ferous", "fic", "fication", "fid",
    "florous", "foliate", "foliolate", "fuge", "ful", "fy",
    "gamous", "gamy", "gen", "genesis", "genic", "genous", "geny",
    "gnathous", "gon", "gony", "grapher", "graphy", "gyne",
    "gynous", "gyny", "ia", "ial", "ian", "iana", "iasis",
    "iatric", "iatrics", "iatry", "ibility", "ible", "ic",
    "icide", "ician", "ick obsolete", "ics", "idae", "ide", "ie",
    "ify", "ile", "ina", "inae", "ine", "ineae", "ing", "ini",
    "ious", "isation", "ise", "ish", "ism", "ist", "istic",
    "istical", "istically", "ite", "itious", "itis", "ity", "ium",
    "ive", "ization", "ize", "kinesis", "kins", "latry", "lepry",
    "ling", "lite", "lith", "lithic", "logue", "logist", "logy",
    "ly", "lyse", "lysis", "lyte", "lytic", "lyze", "mancy",
    "mania", "meister", "ment", "merous", "metry", "mo", "morph",
    "morphic", "morphism", "morphous", "mycete", "mycetes",
    "mycetidae", "mycin", "mycota", "mycotina", "ness", "nik",
    "nomy", "odon", "odont", "odontia", "oholic", "oic", "oid",
    "oidea", "oideae", "ol", "ole", "oma", "ome", "ont", "onym",
    "onymy", "opia", "opsida", "opsis", "opsy", "orama", "ory",
    "ose", "osis", "otic", "otomy", "ous", "para", "parous",
    "pathy", "ped", "pede", "penia", "phage", "phagia", "phagous",
    "phagy", "phane", "phasia", "phil", "phile", "philia",
    "philiac", "philic", "philous", "phobe", "phobia", "phobic",
    "phony", "phore", "phoresis", "phorous", "phrenia", "phyll",
    "phyllous", "phyceae", "phycidae", "phyta", "phyte",
    "phytina", "plasia", "plasm", "plast", "plasty", "plegia",
    "plex", "ploid", "pode", "podous", "poieses", "poietic",
    "pter", "rrhagia", "rrhea", "ric", "ry", "s", "scopy",
    "sepalous", "sperm", "sporous", "st", "stasis", "stat",
    "ster", "stome", "stomy", "taxy", "th", "therm", "thermal",
    "thermic", "thermy", "thon", "thymia", "tion", "tome", "tomy",
    "tonia", "trichous", "trix", "tron", "trophic", "tropism",
    "tropous", "tropy", "tude", "ty", "ular", "ule", "ure",
    "urgy", "uria", "uronic", "urous", "valent", "virile",
    "vorous", "xor", "y", "yl", "yne", "zoic", "zoon", "zygous",
    "zyme"] : List String).map String.data

variable {R : Type} [LinearOrderedField R]

/-- Function score from samurai.py: the frequency lookup, zeroed below the
noise threshold 30. -/
def score (O : Oracles R) (w : List Char) : R :=
  if O.word_frequency w < 30 then 0 else O.word_frequency w

/-- Function in_dictionary from samurai.py: dictionary check on the
lower-cased word. -/
def in_dictionary {R : Type} (O : Oracles R) (word : List Char) : Bool :=
  O.dict_check (lower word)

/-- Function is_prefix from samurai.py: membership of the lower-cased string
in prefix_list. -/
def is_prefix_str (s : List Char) : Prop := lower s ∈ prefix_list

/-- Function is_suffix from samurai.py: membership of the lower-cased string
in suffix_list. -/
def is_suffix_str (s : List Char) : Prop := lower s ∈ suffix_list

instance (s : List Char) : Decidable (is_prefix_str s) :=
  inferInstanceAs (Decidable (lower s ∈ prefix_list))

instance (s : List Char) : Decidable (is_suffix_str s) :=
  inferInstanceAs (Decidable (lower s ∈ suffix_list))

/-- Function rescale from samurai.py. The Python exponentiations
math.pow(value, 1.0/2) and math.pow(value, 1.0/2.5) appear through the
external powf capability. -/
def rescale (O : Oracles R) (token : List Char) (value : R) : R :=
  if token.length ≤ 1 then 0
  else if token.length ≤ 4 ∧ in_dictionary O token then O.powf value (1 / 2)
  else O.powf value (1 / 2.5)

lemma score_nonneg (O : Oracles R) (w : List Char) : 0 ≤ score O w := by
  unfold score
  split
  · exact le_refl 0
  · next h => linarith [not_lt.mp h]

lemma threshold_nonneg (O : Oracles R) (s : List Char) (ns : R) :
    (0 : R) ≤ max (score O s) ns :=
  le_trans (score_nonneg O s) (le_max_left _ _)

lemma rescale_of_short (O : Oracles R) {t : List Char} (h : t.length ≤ 1)
    (v : R) : rescale O t v = 0 := by
  unfold rescale
  simp [h]

/-- Whenever the rescaled score of the left part of a cut strictly exceeds
the threshold, the cut index is at least two (and the token has at least
two characters). -/
lemma two_le_of_guard (O : Oracles R) {s : List Char} {ns x : R} {i : ℕ}
    (h : max (score O s) ns < rescale O (s.take i) x) :
    2 ≤ i ∧ 2 ≤ s.length := by
  have key : ¬ ((s.take i).length ≤ 1) := by
    intro hle
    rw [rescale_of_short O hle] at h
    exact absurd h (not_lt.mpr (threshold_nonneg O s ns))
  rw [List.length_take] at key
  omega

mutual

/-- Function same_case_split from samurai.py. The while loop over cut
indices is the mutually recursive sccLoop. -/
def same_case_split (O : Oracles R) (s : List Char) (score_ns : R) :
    List (List Char) :=
  if s.length < 2 then [s]
  else if in_dictionary O s then [s]
  else
    match sccLoop O score_ns s 0 none (-1) with
    | none => [s]
    | some sp => if sp = [] then [s] else sp
termination_by (s.length, s.length + 1)
decreasing_by
  apply Prod.Lex.right
  omega

/-- Loop body of same_case_split: while i < n, examine the cut at index i
(left = s[0:i], right = s[i:n]), updating the recorded split and the
running maximum of case-1 scores. -/
def sccLoop (O : Oracles R) (score_ns : R) (s : List Char) (i : ℕ)
    (split : Option (List (List Char))) (max_score : R) :
    Option (List (List Char)) :=
  if hlt : i < s.length then
    if ¬ (is_prefix_str (s.take i) ∨ is_suffix_str (s.drop i)) ∧
        max (score O s) score_ns < rescale O (s.take i) (score O (s.take i)) ∧
        max (score O s) score_ns < rescale O (s.drop i) (score O (s.drop i)) then
      if score O (s.take i) + score O (s.drop i) > max_score then
        sccLoop O score_ns s (i + 1) (some [s.take i, s.drop i])
          (score O (s.take i) + score O (s.drop i))
      else
        sccLoop O score_ns s (i + 1) split max_score
    else if hc2 : ¬ (is_prefix_str (s.take i) ∨ is_suffix_str (s.drop i)) ∧
        max (score O s) score_ns < rescale O (s.take i) (score O (s.take i)) then
      if (same_case_split O (s.drop i) score_ns).head? ≠ some (s.drop i) then
        sccLoop O score_ns s (i + 1)
          (some (s.take i :: same_case_split O (s.drop i) score_ns)) max_score
      else
        sccLoop O score_ns s (i + 1) split max_score
    else
      sccLoop O score_ns s (i + 1) split max_score
  else split
termination_by (s.length, s.length - i)
decreasing_by
  all_goals
    first
    | (apply Prod.Lex.right; omega)
    | (apply Prod.Lex.left
       have h2 := two_le_of_guard O hc2.2
       rw [List.length_drop]
       omega)

end

/-- Body of one iteration of same_case_split's while loop, as a pure step
function on the loop state (recorded split, running case-1 maximum). -/
def sccStep (O : Oracles R) (ns : R) (s : List Char)
    (st : Option (List (List Char)) × R) (i : ℕ) :
    Option (List (List Char)) × R :=
  if ¬ (is_prefix_str (s.take i) ∨ is_suffix_str (s.drop i)) ∧
      max (score O s) ns < rescale O (s.take i) (score O (s.take i)) ∧
      max (score O s) ns < rescale O (s.drop i) (score O (s.drop i)) then
    if score O (s.take i) + score O (s.drop i) > st.2 then
      (some [s.take i, s.drop i], score O (s.take i) + score O (s.drop i))
    else st
  else if ¬ (is_prefix_str (s.take i) ∨ is_suffix_str (s.drop i)) ∧
      max (score O s) ns < rescale O (s.take i) (score O (s.take i)) then
    if (same_case_split O (s.drop i) ns).head? ≠ some (s.drop i) then
      (some (s.take i :: same_case_split O (s.drop i) ns), st.2)
    else st
  else st

lemma sccLoop_exit (O : Oracles R) (ns : R) (s : List Char) (i : ℕ)
    (sp : Option (List (List Char))) (ms : R) (h : s.length ≤ i) :
    sccLoop O ns s i sp ms = sp := by
  unfold sccLoop
  simp [Nat.not_lt.mpr h]

lemma sccLoop_step (O : Oracles R) (ns : R) (s : List Char) (i : ℕ)
    (sp : Option (List (List Char))) (ms : R) (h : i < s.length) :
    sccLoop O ns s i sp ms =
      sccLoop O ns s (i + 1) (sccStep O ns s (sp, ms) i).1
        (sccStep O ns s (sp, ms) i).2 := by
  conv_lhs => rw [sccLoop]
  rw [dif_pos h]
  unfold sccStep
  split_ifs <;> rfl

lemma sccLoop_eq_foldl (O : Oracles R) (ns : R) (s : List Char) :
    ∀ (k i : ℕ) (sp : Option (List (List Char))) (ms : R), s.length ≤ i + k →
      sccLoop O ns s i sp ms =
        (List.foldl (sccStep O ns s) (sp, ms) (List.range' i (s.length - i))).1 := by
  intro k
  induction k with
  | zero =>
      intro i sp ms hk
      have h0 : s.length - i = 0 := by omega
      rw [h0, sccLoop_exit O ns s i sp ms (by omega)]
      rfl
  | succ k IH =>
      intro i sp ms hk
      by_cases h : i < s.length
      · have hm : s.length - i = (s.length - (i + 1)) + 1 := by omega
        rw [hm, List.range'_succ, List.foldl_cons, sccLoop_step O ns s i sp ms h]
        exact IH (i + 1) _ _ (by omega)
      · have h0 : s.length - i = 0 := by omega
        rw [h0, sccLoop_exit O ns s i sp ms (by omega)]
        rfl

/-- Evaluation form of same_case_split: the loop is a left fold of the step
function over the cut indices 0, 1, ..., length - 1. -/
lemma scs_eval (O : Oracles R) (s : List Char) (ns : R) :
    same_case_split O s ns =
      if s.length < 2 then [s]
      else if in_dictionary O s then [s]
      else
        match (List.foldl (sccStep O ns s) (none, -1)
            (List.range' 0 s.length)).1 with
        | none => [s]
        | some sp => if sp = [] then [s] else sp := by
  conv_lhs => rw [same_case_split]
  rw [sccLoop_eq_foldl O ns s s.length 0 none (-1) (by omega), Nat.sub_zero]

/-- Fueled mirror of same_case_split's while loop; used only to evaluate the
algorithm on concrete inputs by kernel reduction. -/
def loopFuel (O : Oracles R) (recF : List Char → List (List Char)) (ns : R)
    (s : List Char) : ℕ → ℕ → Option (List (List Char)) → R →
    Option (List (List Char))
  | 0, _, sp, _ => sp
  | gas + 1, i, sp, ms =>
    if i < s.length then
      if ¬ (is_prefix_str (s.take i) ∨ is_suffix_str (s.drop i)) ∧
          max (score O s) ns < rescale O (s.take i) (score O (s.take i)) ∧
          max (score O s) ns < rescale O (s.drop i) (score O (s.drop i)) then
        if score O (s.take i) + score O (s.drop i) > ms then
          loopFuel O recF ns s gas (i + 1) (some [s.take i, s.drop i])
            (score O (s.take i) + score O (s.drop i))
        else loopFuel O recF ns s gas (i + 1) sp ms
      else if ¬ (is_prefix_str (s.take i) ∨ is_suffix_str (s.drop i)) ∧
          max (score O s) ns < rescale O (s.take i) (score O (s.take i)) then
        if (recF (s.drop i)).head? ≠ some (s.drop i) then
          loopFuel O recF ns s gas (i + 1) (some (s.take i :: recF (s.drop i))) ms
        else loopFuel O recF ns s gas (i + 1) sp ms
      else loopFuel O recF ns s gas (i + 1) sp ms
    else sp

/-- Fueled mirror of same_case_split, for concrete evaluation. -/
def scsFuel : ℕ → Oracles R → List Char → R → List (List Char)
  | 0, _, s, _ => [s]
  | f + 1, O, s, ns =>
    if s.length < 2 then [s]
    else if in_dictionary O s then [s]
    else
      match loopFuel O (fun t => scsFuel f O t ns) ns s s.length 0 none (-1) with
      | none => [s]
      | some sp => if sp = [] then [s] else sp

lemma loopFuel_eq (O : Oracles R) (ns : R) (s : List Char)
    (recF : List Char → List (List Char))
    (hrec : ∀ t, t.length < s.length → recF t = same_case_split O t ns) :
    ∀ (gas i : ℕ) (sp : Option (List (List Char))) (ms : R), s.length ≤ i + gas →
      loopFuel O recF ns s gas i sp ms = sccLoop O ns s i sp ms := by
  intro gas
  induction gas with
  | zero =>
      intro i sp ms h
      rw [sccLoop_exit O ns s i sp ms (by omega)]
      rfl
  | succ gas IH =>
      intro i sp ms h
      by_cases hi : i < s.length
      · conv_rhs => rw [sccLoop]
        rw [dif_pos hi]
        show (if _ then _ else _) = _
        rw [if_pos hi]
        by_cases hc1 : ¬ (is_prefix_str (s.take i) ∨ is_suffix_str (s.drop i)) ∧
            max (score O s) ns < rescale O (s.take i) (score O (s.take i)) ∧
            max (score O s) ns < rescale O (s.drop i) (score O (s.drop i))
        · rw [if_pos hc1, if_pos hc1]
          by_cases hgt : score O (s.take i) + score O (s.drop i) > ms
          · rw [if_pos hgt, if_pos hgt]
            exact IH (i + 1) _ _ (by omega)
          · rw [if_neg hgt, if_neg hgt]
            exact IH (i + 1) _ _ (by omega)
        · rw [if_neg hc1, if_neg hc1]
          by_cases hc2 : ¬ (is_prefix_str (s.take i) ∨ is_suffix_str (s.drop i)) ∧
              max (score O s) ns < rescale O (s.take i) (score O (s.take i))
          · rw [if_pos hc2, dif_pos hc2]
            have hlen : (s.drop i).length < s.length := by
              have h2 := two_le_of_guard O hc2.2
              rw [List.length_drop]
              omega
            rw [hrec (s.drop i) hlen]
            by_cases hh : (same_case_split O (s.drop i) ns).head? ≠ some (s.drop i)
            · rw [if_pos hh, if_pos hh]
              exact IH (i + 1) _ _ (by omega)
            · rw [if_neg hh, if_neg hh]
              exact IH (i + 1) _ _ (by omega)
          · rw [if_neg hc2, dif_neg hc2]
            exact IH (i + 1) _ _ (by omega)
      · rw [sccLoop_exit O ns s i sp ms (by omega)]
        show (if _ then _ else _) = _
        rw [if_neg hi]

lemma scsFuel_eq (O : Oracles R) (ns : R) :
    ∀ (f : ℕ) (s : List Char), s.length ≤ f →
      scsFuel f O s ns = same_case_split O s ns := by
  intro f
  induction f with
  | zero =>
      intro s h
      have hs : s = [] := List.eq_nil_of_length_eq_zero (by omega)
      subst hs
      rw [same_case_split]
      rfl
  | succ f IH =>
      intro s h
      conv_rhs => rw [same_case_split]
      show (if s.length < 2 then [s]
        else if in_dictionary O s then [s]
        else
          match loopFuel O (fun t => scsFuel f O t ns) ns s s.length 0 none (-1) with
          | none => [s]
          | some sp => if sp = [] then [s] else sp) = _
      by_cases h2 : s.length < 2
      · rw [if_pos h2, if_pos h2]
      · rw [if_neg h2, if_neg h2]
        by_cases hd : in_dictionary O s
        · rw [if_pos hd, if_pos hd]
        · rw [if_neg hd, if_neg hd]
          rw [loopFuel_eq O ns s _ (fun t ht => IH t (by omega)) s.length 0 none (-1)
            (by omega)]

/-- Concrete oracle over the rationals: every frequency is zero, the
dictionary is empty, the upstream splitter returns the identifier whole,
and powf keeps its first argument. -/
def Oq0 : Oracles ℚ := ⟨fun _ => 0, fun _ => false, fun x => [x], fun v _ => v⟩

/-- Frequency table of the synthetic scoring configuration used to observe
a case-2 result overriding an earlier case-1 result. -/
def freq3 : List Char → ℚ := fun w =>
  if w = "ab".data then 100
  else if w = "cqwzx".data then 100
  else if w = "abc".data then 50
  else if w = "qw".data then 100
  else if w = "zx".data then 100
  else 0

/-- Concrete oracle over the rationals built on the freq3 table. -/
def Oq3 : Oracles ℚ := ⟨freq3, fun _ => false, fun x => [x], fun v _ => v⟩

lemma two_le_len_of_guard (O : Oracles R) {s t : List Char} {ns x : R}
    (h : max (score O s) ns < rescale O t x) : 2 ≤ t.length := by
  by_contra hc
  rw [rescale_of_short O (by omega)] at h
  exact absurd h (not_lt.mpr (threshold_nonneg O s ns))

lemma foldl_inv {α σ : Type _} (f : σ → α → σ) (P : σ → Prop) :
    ∀ (L : List α) (st : σ), P st → (∀ st a, a ∈ L → P st → P (f st a)) →
      P (List.foldl f st L) := by
  intro L
  induction L with
  | nil => intro st h _; exact h
  | cons a L IH =>
      intro st h hstep
      exact IH _ (hstep st a (by simp) h)
        (fun st' b hb hP => hstep st' b (by simp [hb]) hP)

/-- Shape of a sccStep state that the scan can ever record: it joins back to
the scanned token, it is a genuine split into at least two pieces, every
piece has at least two characters, and the top-level cut is not
affix-suppressed. -/
def GoodState (s : List Char) (st : Option (List (List Char)) × R) : Prop :=
  ∀ sp, st.1 = some sp → sp.join = s ∧
    ∃ l rest, sp = l :: rest ∧ rest ≠ [] ∧
      (∀ t ∈ l :: rest, 2 ≤ t.length) ∧
      ¬ is_prefix_str l ∧ ¬ is_suffix_str rest.join

/-- Main structural invariant of same_case_split, proved by strong induction
on the token length. -/
lemma scs_master (O : Oracles R) :
    ∀ (n : ℕ) (s : List Char), s.length ≤ n → ∀ ns : R,
      (same_case_split O s ns).join = s ∧
      (same_case_split O s ns = [s] ∨
        ∃ l rest, same_case_split O s ns = l :: rest ∧ rest ≠ [] ∧
          (∀ t ∈ l :: rest, 2 ≤ t.length) ∧
          ¬ is_prefix_str l ∧ ¬ is_suffix_str rest.join) := by
  intro n
  induction n with
  | zero =>
      intro s hlen ns
      have hs : s = [] := List.eq_nil_of_length_eq_zero (by omega)
      subst hs
      rw [scs_eval]
      simp
  | succ n IH =>
      intro s hlen ns
      rw [scs_eval]
      by_cases h2 : s.length < 2
      · simp [h2]
      · rw [if_neg h2]
        by_cases hd : in_dictionary O s
        · simp [hd]
        · rw [if_neg (by simp [hd])]
          have step : ∀ (st : Option (List (List Char)) × R) (i : ℕ),
              i ∈ List.range' 0 s.length → GoodState (R := R) s st →
              GoodState (R := R) s (sccStep O ns s st i) := by
            intro st i hi hP
            have hilt : i < s.length := by
              have := List.mem_range'_1.mp hi
              omega
            unfold sccStep
            split_ifs with hc1 hgt hc2 hhd
            · -- case 1, new maximum recorded
              intro sp hsp
              simp only [Option.some.injEq] at hsp
              subst hsp
              have hi2 : 2 ≤ i := by
                have := two_le_len_of_guard O hc1.2.1
                rw [List.length_take] at this
                omega
              have hdl : 2 ≤ (s.drop i).length := two_le_len_of_guard O hc1.2.2
              rcases not_or.mp hc1.1 with ⟨hp, hs⟩
              refine ⟨by simp, s.take i, [s.drop i], rfl, by simp, ?_, hp, ?_⟩
              · intro t ht
                simp only [List.mem_cons, List.mem_singleton] at ht
                rcases ht with rfl | rfl | hf
                · rw [List.length_take]
                  omega
                · exact hdl
                · cases hf
              · simpa using hs
            · exact hP
            · -- case 2, recursive result accepted
              intro sp hsp
              simp only [Option.some.injEq] at hsp
              subst hsp
              have hi2 : 2 ≤ i := by
                have := two_le_len_of_guard O hc2.2
                rw [List.length_take] at this
                omega
              have hrlen : (s.drop i).length ≤ n := by
                rw [List.length_drop]
                omega
              have hIH := IH (s.drop i) hrlen ns
              rcases not_or.mp hc2.1 with ⟨hp, hs⟩
              rcases hIH.2 with hone | ⟨l', rest', heq, hne', hlen', _, _⟩
              · exact absurd (by rw [hone]; rfl) hhd
              · refine ⟨?_, s.take i, same_case_split O (s.drop i) ns, rfl,
                  by rw [heq]; simp, ?_, hp, ?_⟩
                · simp [hIH.1]
                · intro t ht
                  simp only [List.mem_cons] at ht
                  rcases ht with rfl | ht
                  · rw [List.length_take]
                    omega
                  · rw [heq] at ht
                    exact hlen' t ht
                · rw [hIH.1]
                  exact hs
            · exact hP
            · exact hP
          have key : GoodState (R := R) s
              (List.foldl (sccStep O ns s) (none, -1) (List.range' 0 s.length)) :=
            foldl_inv (sccStep O ns s) (GoodState s) (List.range' 0 s.length)
              (none, -1) (by intro sp hsp; exact absurd hsp (by simp)) step
          rcases hres : (List.foldl (sccStep O ns s) (none, -1)
              (List.range' 0 s.length)).1 with _ | sp
          · simp
          · rcases key sp hres with ⟨hjoin, l, rest, hsp, hne, hlens, hpre, hsuf⟩
            have hne2 : sp ≠ [] := by rw [hsp]; simp
            constructor
            · simpa [hne2] using hjoin
            · right
              exact ⟨l, rest, by simp [hne2, hsp], hne, hlens, hpre, hsuf⟩

/-- The pieces returned by same_case_split always concatenate back to the
input token. -/
lemma same_case_split_join (O : Oracles R) (s : List Char) (ns : R) :
    (same_case_split O s ns).join = s :=
  (scs_master O s.length s le_rfl ns).1

/-- Shape of a same_case_split result: either the unchanged token, or a
genuine split with big pieces and an affix-free top cut. -/
lemma same_case_split_shape (O : Oracles R) (s : List Char) (ns : R) :
    same_case_split O s ns = [s] ∨
      ∃ l rest, same_case_split O s ns = l :: rest ∧ rest ≠ [] ∧
        (∀ t ∈ l :: rest, 2 ≤ t.length) ∧
        ¬ is_prefix_str l ∧ ¬ is_suffix_str rest.join :=
  (scs_master O s.length s le_rfl ns).2

/-- Index of the first upper-to-lower case transition, the re.search of the
pattern of an uppercase letter followed by a lowercase letter in
samurai_split. -/
def findTransition : List Char → Option ℕ
  | [] => none
  | [_] => none
  | a :: b :: rest =>
      if a.isUpper ∧ b.isLower then some 0
      else (findTransition (b :: rest)).map (· + 1)

/-- Case-transition handling of one segment inside samurai_split (the body
of its first loop): either no transition, or a comparison of the camel
score against the rescaled score of the text after the uppercase letter. -/
def caseTransitionParts (O : Oracles R) (s : List Char) : List (List Char) :=
  match findTransition s with
  | none => [s]
  | some i =>
      if (if 0 < i then score O (s.drop i) else score O s) >
          rescale O (s.drop (i + 1)) (score O (s.drop (i + 1))) then
        if 0 < i then [s.take i, s.drop i] else [s]
      else [s.take (i + 1), s.drop (i + 1)]

/-- Function samurai_split from samurai.py: split each simple_split segment
at its first case transition, then run same_case_split on every resulting
token with that token's own score as the noise floor. -/
def samurai_split (O : Oracles R) (identifier : List Char) : List (List Char) :=
  (((O.simple_split identifier).map (caseTransitionParts O)).join.map
      (fun token => same_case_split O token (score O token))).join

lemma caseTransitionParts_join (O : Oracles R) (s : List Char) :
    (caseTransitionParts O s).join = s := by
  unfold caseTransitionParts
  cases hft : findTransition s with
  | none => simp
  | some i =>
      dsimp only
      split_ifs <;> simp

lemma join_bind (g : List Char → List (List Char)) (h : ∀ t, (g t).join = t) :
    ∀ L : List (List Char), ((L.map g).join).join = L.join := by
  intro L
  induction L with
  | nil => simp
  | cons a L IH => simp [h a, IH]

lemma samurai_split_join (O : Oracles R) (x : List Char) :
    (samurai_split O x).join = (O.simple_split x).join := by
  unfold samurai_split
  rw [join_bind (fun token => same_case_split O token (score O token))
      (fun t => same_case_split_join O t (score O t)),
    join_bind (caseTransitionParts O) (caseTransitionParts_join O)]

lemma toNat_ofNat_valid {n : ℕ} (h : n.isValidChar) :
    (Char.ofNat n).toNat = n := by
  unfold Char.ofNat
  rw [dif_pos h]
  rfl

lemma toLower_toLower (c : Char) : c.toLower.toLower = c.toLower := by
  unfold Char.toLower
  by_cases h : c.toNat ≥ 65 ∧ c.toNat ≤ 90
  · rw [if_pos h]
    have hv : (c.toNat + 32).isValidChar := Or.inl (by omega)
    have ht : (Char.ofNat (c.toNat + 32)).toNat = c.toNat + 32 :=
      toNat_ofNat_valid hv
    rw [if_neg]
    intro hcon
    rw [ht] at hcon
    omega
  · rw [if_neg h, if_neg h]

lemma lower_length (w : List Char) : (lower w).length = w.length := by
  simp [lower]

lemma lower_lower (w : List Char) : lower (lower w) = lower w := by
  simp only [lower, List.map_map]
  exact List.map_congr_left (fun a _ => by simp [Function.comp, toLower_toLower])

lemma lower_take (i : ℕ) (w : List Char) :
    lower (w.take i) = (lower w).take i := by
  simp [lower, List.map_take]

lemma lower_drop (i : ℕ) (w : List Char) :
    lower (w.drop i) = (lower w).drop i := by
  simp [lower, List.map_drop]

lemma score_lower (O : Oracles R)
    (hfreq : ∀ w, O.word_frequency (lower w) = O.word_frequency w)
    (w : List Char) : score O (lower w) = score O w := by
  unfold score
  rw [hfreq]

lemma in_dictionary_lower {S : Type} (O : Oracles S) (w : List Char) :
    in_dictionary O (lower w) = in_dictionary O w := by
  unfold in_dictionary
  rw [lower_lower]

lemma is_prefix_str_lower (w : List Char) :
    is_prefix_str (lower w) ↔ is_prefix_str w := by
  unfold is_prefix_str
  rw [lower_lower]

lemma is_suffix_str_lower (w : List Char) :
    is_suffix_str (lower w) ↔ is_suffix_str w := by
  unfold is_suffix_str
  rw [lower_lower]

lemma rescale_lower (O : Oracles R) (t : List Char) (v : R) :
    rescale O (lower t) v = rescale O t v := by
  unfold rescale
  rw [lower_length, in_dictionary_lower]

/-- The acceptance check of case 2 is insensitive to lower-casing: the
mapped result starts with the lower-cased right part exactly when the
original result starts with the right part (its head is always a prefix of
the right part, so equal lower-casings force equality). -/
lemma scs_head_lower (O : Oracles R) (r : List Char) (ns : R) :
    ((same_case_split O r ns).map lower).head? = some (lower r) ↔
      (same_case_split O r ns).head? = some r := by
  rw [List.head?_map]
  cases htmp : (same_case_split O r ns).head? with
  | none => simp
  | some a =>
      simp only [Option.map_some', Option.some.injEq]
      constructor
      · intro h
        rcases List.head?_eq_some_iff.mp htmp with ⟨ys, hys⟩
        have hjoin := same_case_split_join O r ns
        rw [hys] at hjoin
        have hpre : a <+: r := ⟨ys.join, by simpa using hjoin⟩
        have hlen : a.length = r.length := by
          have := congrArg List.length h
          rwa [lower_length, lower_length] at this
        exact hpre.eq_of_length hlen
      · intro h
        rw [h]

/-- Lower-casing the input commutes with same_case_split whenever the
frequency oracle is case-insensitive. -/
lemma scs_lower (O : Oracles R)
    (hfreq : ∀ w, O.word_frequency (lower w) = O.word_frequency w) :
    ∀ (n : ℕ) (s : List Char), s.length ≤ n → ∀ ns : R,
      same_case_split O (lower s) ns = (same_case_split O s ns).map lower := by
  intro n
  induction n with
  | zero =>
      intro s hlen ns
      have hs : s = [] := List.eq_nil_of_length_eq_zero (by omega)
      subst hs
      rw [scs_eval, scs_eval]
      rfl
  | succ n IH =>
      intro s hlen ns
      rw [scs_eval O (lower s) ns, scs_eval O s ns, lower_length]
      by_cases h2 : s.length < 2
      · rw [if_pos h2, if_pos h2]
        rfl
      · rw [if_neg h2, if_neg h2, in_dictionary_lower]
        by_cases hd : in_dictionary O s
        · rw [if_pos (by simp [hd]), if_pos (by simp [hd])]
          rfl
        · rw [if_neg (by simp [hd]), if_neg (by simp [hd])]
          have hstep : ∀ (sp : Option (List (List Char))) (ms : R) (i : ℕ),
              sccStep O ns (lower s) (Option.map (List.map lower) sp, ms) i =
                (Option.map (List.map lower) (sccStep O ns s (sp, ms) i).1,
                  (sccStep O ns s (sp, ms) i).2) := by
            intro sp ms i
            unfold sccStep
            simp only [← lower_take, ← lower_drop, score_lower O hfreq,
              rescale_lower, is_prefix_str_lower, is_suffix_str_lower]
            by_cases hc1 : ¬ (is_prefix_str (s.take i) ∨ is_suffix_str (s.drop i)) ∧
                max (score O s) ns < rescale O (s.take i) (score O (s.take i)) ∧
                max (score O s) ns < rescale O (s.drop i) (score O (s.drop i))
            · rw [if_pos hc1, if_pos hc1]
              by_cases hgt : score O (s.take i) + score O (s.drop i) > ms
              · rw [if_pos hgt, if_pos hgt]
                rfl
              · rw [if_neg hgt, if_neg hgt]
            · rw [if_neg hc1, if_neg hc1]
              by_cases hc2 : ¬ (is_prefix_str (s.take i) ∨ is_suffix_str (s.drop i)) ∧
                  max (score O s) ns < rescale O (s.take i) (score O (s.take i))
              · rw [if_pos hc2, if_pos hc2]
                have hi2 : 2 ≤ i ∧ 2 ≤ s.length := by
                  have h1 := two_le_len_of_guard O hc2.2
                  rw [List.length_take] at h1
                  omega
                have hrec : same_case_split O (lower (s.drop i)) ns =
                    (same_case_split O (s.drop i) ns).map lower :=
                  IH (s.drop i) (by rw [List.length_drop]; omega) ns
                rw [hrec]
                by_cases hh : (same_case_split O (s.drop i) ns).head? =
                    some (s.drop i)
                · have hcond : ¬ ((List.map lower
                      (same_case_split O (s.drop i) ns)).head? ≠
                        some (lower (s.drop i))) :=
                    not_not_intro ((scs_head_lower O (s.drop i) ns).mpr hh)
                  rw [if_neg hcond, if_neg (not_not_intro hh)]
                · have hcond : (List.map lower
                      (same_case_split O (s.drop i) ns)).head? ≠
                        some (lower (s.drop i)) :=
                    fun hcon => hh ((scs_head_lower O (s.drop i) ns).mp hcon)
                  rw [if_pos hcond, if_pos hh]
                  rfl
              · rw [if_neg hc2, if_neg hc2]
          have hfold : ∀ (L : List ℕ) (sp : Option (List (List Char))) (ms : R),
              List.foldl (sccStep O ns (lower s))
                  (Option.map (List.map lower) sp, ms) L =
                (Option.map (List.map lower)
                    (List.foldl (sccStep O ns s) (sp, ms) L).1,
                  (List.foldl (sccStep O ns s) (sp, ms) L).2) := by
            intro L
            induction L with
            | nil => intro sp ms; rfl
            | cons i L IHL =>
                intro sp ms
                rw [List.foldl_cons, List.foldl_cons, hstep sp ms i]
                exact IHL (sccStep O ns s (sp, ms) i).1 (sccStep O ns s (sp, ms) i).2
          have hfold0 := hfold (List.range' 0 s.length) none (-1)
          simp only [Option.map_none'] at hfold0
          rw [hfold0]
          dsimp only
          cases hres : (List.foldl (sccStep O ns s) (none, -1)
              (List.range' 0 s.length)).1 with
          | none => rfl
          | some sp =>
              dsimp only [Option.map_some']
              by_cases hsp : sp = []
              · subst hsp
                rw [if_pos rfl, if_pos (by rfl)]
                rfl
              · rw [if_neg hsp, if_neg (fun hcon => hsp (List.map_eq_nil.mp hcon))]

/-- Cut indices examined by same_case_split's while loop (i starts at 0 and
the loop runs while i < n, incrementing by one). -/
def scanIndices (s : List Char) : List ℕ := List.range s.length

/-- Concrete oracle over the rationals whose dictionary accepts every word. -/
def Od : Oracles ℚ := ⟨fun _ => 0, fun _ => true, fun x => [x], fun v _ => v⟩

/-- C1: splitting only inserts boundaries: for every string and noise floor
the pieces of same_case_split concatenate back to the input, and the tokens
of samurai_split concatenate to the concatenation of the simple_split
segments (hence to the identifier whenever simple_split is
character-preserving). -/
theorem c1_reconstruction {R : Type} [LinearOrderedField R] (O : Oracles R)
    (s x : List Char) (ns : R) :
    (same_case_split O s ns).join = s ∧
    (samurai_split O x).join = (O.simple_split x).join ∧
    ((O.simple_split x).join = x → (samurai_split O x).join = x) :=
  ⟨same_case_split_join O s ns, samurai_split_join O x,
    fun h => (samurai_split_join O x).trans h⟩

theorem c1_reconstruction_witness :
    (Oq3.simple_split ("ab".data)).join = "ab".data ∧
    (samurai_split Oq3 ("ab".data)).join = "ab".data :=
  ⟨by with_unfolding_all decide,
    (c1_reconstruction Oq3 [] ("ab".data) 0).2.2 (by with_unfolding_all decide)⟩

/-- C2: the case-2 guard (rescaled left score strictly above the threshold)
can only hold at cut index at least 2, so the recursive call of the case-2
branch operates on a strictly shorter strict suffix of the current token;
recursion depth is therefore bounded by the token length. -/
theorem c2_case2_recursion_shrinks {R : Type} [LinearOrderedField R]
    (O : Oracles R) (hwf : ∀ w, (0 : R) ≤ O.word_frequency w)
    (s : List Char) (ns x : R) (i : ℕ)
    (hguard : max (score O s) ns < rescale O (s.take i) x) :
    2 ≤ i ∧ (s.drop i).length < s.length ∧ (s.drop i).IsSuffix s ∧
      s.drop i ≠ s := by
  obtain ⟨h2i, h2n⟩ := two_le_of_guard O hguard
  refine ⟨h2i, by rw [List.length_drop]; omega, List.drop_suffix i s, ?_⟩
  intro hcon
  have := congrArg List.length hcon
  rw [List.length_drop] at this
  omega

theorem c2_case2_recursion_shrinks_witness :
    2 ≤ 2 ∧ (("abcqwzx".data).drop 2).length < ("abcqwzx".data).length ∧
      (("abcqwzx".data).drop 2).IsSuffix ("abcqwzx".data) ∧
      ("abcqwzx".data).drop 2 ≠ "abcqwzx".data :=
  c2_case2_recursion_shrinks Oq3
    (by intro w; simp only [Oq3]; unfold freq3; split_ifs <;> norm_num)
    ("abcqwzx".data) 0 (score Oq3 (("abcqwzx".data).take 2)) 2
    (by with_unfolding_all decide)

/-- C3: within one scan, case-1 candidates compete only through the running
maximum while an accepted case-2 recursive result overwrites the recorded
split unconditionally: in the freq3 configuration a case-1 candidate
qualifies at index 2 of the token abcqwzx, a case-2 candidate is accepted
at the later index 3, and the returned split is the later case-2 result,
not the earlier case-1 pair. -/
theorem c3_case2_overrides_case1 :
    (¬ (is_prefix_str (("abcqwzx".data).take 2) ∨
        is_suffix_str (("abcqwzx".data).drop 2)) ∧
      max (score Oq3 ("abcqwzx".data)) 0 <
        rescale Oq3 (("abcqwzx".data).take 2)
          (score Oq3 (("abcqwzx".data).take 2)) ∧
      max (score Oq3 ("abcqwzx".data)) 0 <
        rescale Oq3 (("abcqwzx".data).drop 2)
          (score Oq3 (("abcqwzx".data).drop 2))) ∧
    ((2 : ℕ) < 3 ∧
      ¬ (is_prefix_str (("abcqwzx".data).take 3) ∨
        is_suffix_str (("abcqwzx".data).drop 3)) ∧
      max (score Oq3 ("abcqwzx".data)) 0 <
        rescale Oq3 (("abcqwzx".data).take 3)
          (score Oq3 (("abcqwzx".data).take 3)) ∧
      ¬ (max (score Oq3 ("abcqwzx".data)) 0 <
        rescale Oq3 (("abcqwzx".data).drop 3)
          (score Oq3 (("abcqwzx".data).drop 3))) ∧
      (same_case_split Oq3 (("abcqwzx".data).drop 3) 0).head? ≠
        some (("abcqwzx".data).drop 3)) ∧
    same_case_split Oq3 ("abcqwzx".data) 0 =
      ["abc".data, "qw".data, "zx".data] ∧
    ["abc".data, "qw".data, "zx".data] ≠
      [("abcqwzx".data).take 2, ("abcqwzx".data).drop 2] := by
  have e1 : same_case_split Oq3 (("abcqwzx".data).drop 3) 0 =
      scsFuel 4 Oq3 (("abcqwzx".data).drop 3) 0 :=
    (scsFuel_eq Oq3 0 4 (("abcqwzx".data).drop 3) (by decide)).symm
  have e2 : same_case_split Oq3 ("abcqwzx".data) 0 =
      scsFuel 7 Oq3 ("abcqwzx".data) 0 :=
    (scsFuel_eq Oq3 0 7 ("abcqwzx".data) (by decide)).symm
  refine ⟨by with_unfolding_all decide,
    ⟨by norm_num, by with_unfolding_all decide, by with_unfolding_all decide,
      by with_unfolding_all decide, ?_⟩, ?_, by decide⟩
  · rw [e1]
    with_unfolding_all decide
  · rw [e2]
    with_unfolding_all decide

/-- C4: affix suppression: a cut whose left piece is a listed prefix or
whose right piece is a listed suffix updates nothing at its scan step, and
a returned genuine split never has a listed prefix as its first piece nor a
listed suffix as the remainder of its first cut. -/
theorem c4_affix_suppression {R : Type} [LinearOrderedField R]
    (O : Oracles R) (s : List Char) (ns : R) :
    (∀ (i : ℕ) (st : Option (List (List Char)) × R), i < s.length →
        is_prefix_str (s.take i) ∨ is_suffix_str (s.drop i) →
        sccStep O ns s st i = st) ∧
    (∀ l rest, same_case_split O s ns = l :: rest → rest ≠ [] →
        ¬ is_prefix_str l ∧ ¬ is_suffix_str rest.join) := by
  constructor
  · intro i st _ hpre
    unfold sccStep
    rw [if_neg (fun hc => hc.1 hpre), if_neg (fun hc => hc.1 hpre)]
  · intro l rest hres hne
    rcases same_case_split_shape O s ns with hone | ⟨l', rest', heq, _, _, hp, hsuf⟩
    · rw [hone] at hres
      obtain ⟨rfl, rfl⟩ := (List.cons.injEq _ _ _ _).mp hres.symm
      exact absurd rfl hne
    · rw [heq] at hres
      obtain ⟨rfl, rfl⟩ := (List.cons.injEq _ _ _ _).mp hres.symm
      exact ⟨hp, hsuf⟩

theorem c4_affix_suppression_witness :
    (2 < ("unzx".data).length ∧
      (is_prefix_str (("unzx".data).take 2) ∨
        is_suffix_str (("unzx".data).drop 2)) ∧
      sccStep Oq3 0 ("unzx".data) (none, -1) 2 = (none, -1)) ∧
    (same_case_split Oq3 ("abcqwzx".data) 0 =
        "abc".data :: ["qw".data, "zx".data] ∧
      ¬ is_prefix_str ("abc".data) ∧
      ¬ is_suffix_str (["qw".data, "zx".data].join)) := by
  have e2 : same_case_split Oq3 ("abcqwzx".data) 0 =
      scsFuel 7 Oq3 ("abcqwzx".data) 0 :=
    (scsFuel_eq Oq3 0 7 ("abcqwzx".data) (by decide)).symm
  have hres : same_case_split Oq3 ("abcqwzx".data) 0 =
      "abc".data :: ["qw".data, "zx".data] := by
    rw [e2]
    with_unfolding_all decide
  refine ⟨⟨by decide, by decide,
      (c4_affix_suppression Oq3 ("unzx".data) 0).1 2 (none, -1)
        (by decide) (by decide)⟩,
    hres, (c4_affix_suppression Oq3 ("abcqwzx".data) 0).2
      ("abc".data) ["qw".data, "zx".data] hres (by decide)⟩

/-- C5: both base cases of same_case_split return the token unchanged as a
singleton list: tokens of length below two, and longer tokens accepted by
the dictionary oracle. -/
theorem c5_base_cases {R : Type} [LinearOrderedField R] (O : Oracles R)
    (s : List Char) (ns : R) :
    (s.length < 2 → same_case_split O s ns = [s]) ∧
    (1 < s.length → in_dictionary O s → same_case_split O s ns = [s]) := by
  constructor
  · intro h
    rw [scs_eval, if_pos h]
  · intro h hd
    rw [scs_eval, if_neg (by omega), if_pos hd]

theorem c5_base_cases_witness :
    same_case_split Oq0 ("a".data) 0 = [("a".data)] ∧
    (1 < ("ab".data).length ∧ in_dictionary Od ("ab".data) ∧
      same_case_split Od ("ab".data) 0 = [("ab".data)]) :=
  ⟨(c5_base_cases Oq0 ("a".data) 0).1 (by decide),
    by decide, by decide,
    (c5_base_cases Od ("ab".data) 0).2 (by decide) (by decide)⟩

/-- C6 counterexample: the while loop examines the cut indices 0 to
length - 1, not 0 to length inclusive: on a two-character token the
examined index list differs from the inclusive range, the index
i = length is not examined, and entering the loop at i = length exits at
once, recording nothing. -/
theorem c6_counterexample :
    scanIndices ("ab".data) ≠ List.range (("ab".data).length + 1) ∧
    ("ab".data).length ∉ scanIndices ("ab".data) ∧
    sccLoop Oq0 (0 : ℚ) ("ab".data) (("ab".data).length) none (-1) = none :=
  ⟨by decide, by decide,
    sccLoop_exit Oq0 0 ("ab".data) (("ab".data).length) none (-1) (by decide)⟩

/-- C6 (amended): in the general case the scan examines exactly the cut
indices 0 to length - 1 (the empty-left extreme is included, the
empty-right extreme i = length is never examined), folding the per-index
step that splits the token into take i and drop i. -/
theorem c6_scan_range {R : Type} [LinearOrderedField R] (O : Oracles R)
    (s : List Char) (ns : R) (h2 : 2 ≤ s.length)
    (hd : ¬ in_dictionary O s) :
    scanIndices s = List.range s.length ∧
    s.length ∉ scanIndices s ∧
    same_case_split O s ns =
      match (List.foldl (sccStep O ns s) (none, -1) (scanIndices s)).1 with
      | none => [s]
      | some sp => if sp = [] then [s] else sp := by
  refine ⟨rfl, by simp [scanIndices], ?_⟩
  rw [scs_eval, if_neg (by omega), if_neg (by simp [hd])]
  rw [scanIndices, List.range_eq_range']

theorem c6_scan_range_witness :
    scanIndices ("ab".data) = List.range (("ab".data).length) ∧
    ("ab".data).length ∉ scanIndices ("ab".data) ∧
    same_case_split Oq0 ("ab".data) 0 =
      match (List.foldl (sccStep Oq0 0 ("ab".data)) (none, -1)
          (scanIndices ("ab".data))).1 with
      | none => [("ab".data)]
      | some sp => if sp = [] then [("ab".data)] else sp :=
  c6_scan_range Oq0 ("ab".data) 0 (by decide) (by decide)

/-- C7: the case-transition step with first transition at index i > 0
returns the cut before the uppercase letter exactly when the camel score
strictly exceeds the rescaled alternative score, and otherwise (equality
included) the cut after the uppercase letter. -/
theorem c7_case_transition {R : Type} [LinearOrderedField R] (O : Oracles R)
    (s : List Char) (i : ℕ) (hft : findTransition s = some i) (hi : 0 < i) :
    (score O (s.drop i) >
        rescale O (s.drop (i + 1)) (score O (s.drop (i + 1))) →
      caseTransitionParts O s = [s.take i, s.drop i]) ∧
    (¬ (score O (s.drop i) >
        rescale O (s.drop (i + 1)) (score O (s.drop (i + 1)))) →
      caseTransitionParts O s = [s.take (i + 1), s.drop (i + 1)]) := by
  unfold caseTransitionParts
  rw [hft]
  dsimp only
  rw [if_pos hi, if_pos hi]
  constructor
  · intro h
    rw [if_pos h]
  · intro h
    rw [if_neg h]

theorem c7_case_transition_witness :
    findTransition ("aAb".data) = some 1 ∧
    caseTransitionParts Oq0 ("aAb".data) = ["aA".data, "b".data] := by
  have h := (c7_case_transition Oq0 ("aAb".data) 1 (by decide) (by decide)).2
    (by with_unfolding_all decide)
  refine ⟨by decide, ?_⟩
  rw [h]
  decide

/-- C8: rescale returns 0 for tokens of length at most one; returns
score to the power 1/2 for dictionary words of length two to four; returns
score to the power 1/2.5 otherwise; and rescale of a zero score is zero
for every token (with powf the real power function of math.pow). -/
theorem c8_rescale_spec (O : Oracles ℝ) (hp : ∀ x y, O.powf x y = x ^ y)
    (t : List Char) (v : ℝ) :
    (t.length ≤ 1 → rescale O t v = 0) ∧
    (2 ≤ t.length → t.length ≤ 4 → in_dictionary O t →
      rescale O t v = v ^ ((1 : ℝ) / 2)) ∧
    (2 ≤ t.length → ¬ (t.length ≤ 4 ∧ in_dictionary O t) →
      rescale O t v = v ^ ((1 : ℝ) / 2.5)) ∧
    (∀ u : List Char, rescale O u 0 = 0) := by
  refine ⟨fun h => rescale_of_short O h v, fun h2 h4 hd => ?_,
    fun h2 hnd => ?_, fun u => ?_⟩
  · unfold rescale
    rw [if_neg (by omega), if_pos ⟨h4, hd⟩, hp]
  · unfold rescale
    rw [if_neg (by omega), if_neg hnd, hp]
  · unfold rescale
    split_ifs
    · rfl
    · rw [hp]
      exact Real.zero_rpow (by norm_num)
    · rw [hp]
      exact Real.zero_rpow (by norm_num)

theorem c8_rescale_spec_witness :
    rescale (⟨fun _ => 0, fun _ => false, fun x => [x], fun x y => x ^ y⟩ :
        Oracles ℝ) ("a".data) 5 = 0 ∧
    rescale (⟨fun _ => 0, fun _ => true, fun x => [x], fun x y => x ^ y⟩ :
        Oracles ℝ) ("abcd".data) 9 = 9 ^ ((1 : ℝ) / 2) ∧
    rescale (⟨fun _ => 0, fun _ => false, fun x => [x], fun x y => x ^ y⟩ :
        Oracles ℝ) ("abcde".data) 7 = 7 ^ ((1 : ℝ) / 2.5) ∧
    rescale (⟨fun _ => 0, fun _ => false, fun x => [x], fun x y => x ^ y⟩ :
        Oracles ℝ) ("abcd".data) 0 = 0 :=
  ⟨(c8_rescale_spec _ (fun _ _ => rfl) ("a".data) 5).1 (by decide),
    (c8_rescale_spec _ (fun _ _ => rfl) ("abcd".data) 9).2.1 (by decide)
      (by decide) (by decide),
    (c8_rescale_spec _ (fun _ _ => rfl) ("abcde".data) 7).2.2.1 (by decide)
      (by decide),
    (c8_rescale_spec _ (fun _ _ => rfl) ([]) 0).2.2.2 ("abcd".data)⟩

/-- C9: no short fragments: when same_case_split actually splits (under a
nonnegative frequency oracle and noise floor), every returned token has at
least two characters. -/
theorem c9_no_short_fragments {R : Type} [LinearOrderedField R]
    (O : Oracles R) (hwf : ∀ w, (0 : R) ≤ O.word_frequency w)
    (s : List Char) (ns : R) (hns : 0 ≤ ns)
    (hsplit : same_case_split O s ns ≠ [s]) :
    ∀ t ∈ same_case_split O s ns, 2 ≤ t.length := by
  rcases same_case_split_shape O s ns with hone | ⟨l, rest, heq, _, hlens, _, _⟩
  · exact absurd hone hsplit
  · rw [heq]
    exact hlens

theorem c9_no_short_fragments_witness :
    same_case_split Oq3 ("abcqwzx".data) 0 ≠ [("abcqwzx".data)] ∧
    ∀ t ∈ same_case_split Oq3 ("abcqwzx".data) 0, 2 ≤ t.length := by
  have e2 : same_case_split Oq3 ("abcqwzx".data) 0 =
      scsFuel 7 Oq3 ("abcqwzx".data) 0 :=
    (scsFuel_eq Oq3 0 7 ("abcqwzx".data) (by decide)).symm
  have hne : same_case_split Oq3 ("abcqwzx".data) 0 ≠ [("abcqwzx".data)] := by
    rw [e2]
    with_unfolding_all decide
  exact ⟨hne, c9_no_short_fragments Oq3
    (by intro w; simp only [Oq3]; unfold freq3; split_ifs <;> norm_num)
    ("abcqwzx".data) 0 le_rfl hne⟩

/-- C10: same_case_split is case-agnostic under a case-insensitive
frequency oracle: splitting the lower-cased string yields the elementwise
lower-casing of the original split. -/
theorem c10_case_agnostic {R : Type} [LinearOrderedField R] (O : Oracles R)
    (hfreq : ∀ w, O.word_frequency (lower w) = O.word_frequency w)
    (s : List Char) (ns : R) :
    same_case_split O (lower s) ns = (same_case_split O s ns).map lower :=
  scs_lower O hfreq s.length s le_rfl ns

theorem c10_case_agnostic_witness :
    same_case_split Oq0 (lower ("Ab".data)) 0 =
      (same_case_split Oq0 ("Ab".data) 0).map lower :=
  c10_case_agnostic Oq0 (fun _ => rfl) ("Ab".data) 0

end Samurai
